import Mathlib

/-!
Shallow embedding of the agent-memory-system core.

The embedding covers the four source modules:
  src/working_memory.py    (WorkingMemory: Redis-backed sliding window)
  src/long_term_memory.py  (LongTermMemory: FAISS index + record table)
  src/memory_manager.py    (MemoryManager: priority write routing)
  src/memory_summarizer.py (summarizer strategies and history)

Modelling conventions:
 * Python dicts are embedded as association lists with Python dict
   semantics: assignment replaces the value of an existing key in place,
   otherwise appends; `in` is key presence; `d.update(m)` folds assignment.
 * `datetime.now()` is an explicit `now : Nat` parameter.
 * The external embedder (`EmbeddingUtil.get_embedding`, which may raise)
   is a parameter `embed : String -> Except String Vec`; vectors are lists
   of rationals.
 * The FAISS index object is modelled by its contract (spec section 6):
   the stored vectors, with `ntotal` as the number of vectors; the raw
   `(position, squared-distance)` pairs an index search returns are passed
   to `search_similar` as an argument, since the nearest-neighbour
   algorithm itself is an external collaborator.
 * Redis availability is a boolean on the WorkingMemory state: every
   client call inside `add_context` is wrapped in a try/except that
   returns False, which the flag reproduces; the per-session turn lists
   are the store contents.  TTL bookkeeping (a pure side effect on expiry
   timers, exercised by no claim below) is not carried in the state.
 * File IO in `load_index` is modelled by `Except` arguments for the two
   artifacts, read in the order the source reads them.
-/

namespace AgentMemory

/-- Association-list embedding of a Python dict: first binding of a key wins
on lookup; construction below keeps keys unique, matching dict semantics. -/
def assocFind {κ α : Type} [DecidableEq κ] : List (κ × α) → κ → Option α
  | [], _ => none
  | p :: rest, k => if p.1 = k then some p.2 else assocFind rest k

/-- Apply `f` to the value stored at key `k` (all bindings of `k`, which is
at most one for dict-built lists), leaving every other binding unchanged. -/
def assocModify {κ α : Type} [DecidableEq κ] (d : List (κ × α)) (k : κ) (f : α → α) :
    List (κ × α) :=
  d.map (fun p => if p.1 = k then (p.1, f p.2) else p)

/-- Python dict assignment `d[k] = v`: replace in place if the key exists,
otherwise append (insertion order preserved). -/
def assocSet {κ α : Type} [DecidableEq κ] (d : List (κ × α)) (k : κ) (v : α) :
    List (κ × α) :=
  if (assocFind d k).isSome then assocModify d k (fun _ => v) else d ++ [(k, v)]

/-- Python `d.update(m)` and the merge `{ ...d, **m }`: fold assignment of
the bindings of `m` over `d`, so bindings of `m` override those of `d`. -/
def dictUpdate {κ α : Type} [DecidableEq κ] (d m : List (κ × α)) : List (κ × α) :=
  m.foldl (fun acc p => assocSet acc p.1 p.2) d

/-- Metadata dicts carry string keys and string values. -/
abbrev Meta := List (String × String)

/-- Embedding vectors, over the rationals. -/
abbrev Vec := List ℚ

/-- The record dict built by `LongTermMemory.add_memory` (source lines
60-65): keys text, metadata, created_at, id; `update_memory` and
`delete_memory` later add the optional updated_at / deleted_at keys. -/
structure MemRecord where
  text : String
  metadata : Meta
  created_at : Nat
  id : Nat
  updated_at : Option Nat := none
  deleted_at : Option Nat := none
  deriving DecidableEq

/-- In-memory state of `LongTermMemory`: the FAISS index contents, the
`id_to_memory` dict and the `next_id` counter (source lines 36-38). -/
structure LongTermMemory where
  index : List Vec
  id_to_memory : List (Nat × MemRecord)
  next_id : Nat
  vector_dim : Nat
  deriving DecidableEq

/-- A freshly constructed `LongTermMemory` (source `__init__`, lines 36-38). -/
def LongTermMemory.fresh (dim : Nat) : LongTermMemory :=
  { index := [], id_to_memory := [], next_id := 0, vector_dim := dim }

/-- `LongTermMemory.add_memory` (source lines 41-74): embed the text
(failure propagates as the raised exception), append the vector to the
index, store the record dict under `next_id`, then increment `next_id`
and return the assigned id. -/
def LongTermMemory.add_memory (embed : String → Except String Vec)
    (s : LongTermMemory) (memory_text : String) (md : Meta) (now : Nat) :
    Except String (Nat × LongTermMemory) :=
  match embed memory_text with
  | .error e => .error e
  | .ok v =>
    let rec0 : MemRecord :=
      { text := memory_text, metadata := md, created_at := now, id := s.next_id }
    .ok (s.next_id,
      { s with
        index := s.index ++ [v],
        id_to_memory := assocSet s.id_to_memory s.next_id rec0,
        next_id := s.next_id + 1 })

/-- One element of the result list of `search_similar` (source lines
106-111). -/
structure SearchResult where
  id : Nat
  similarity : ℚ
  distance : ℚ
  memory : MemRecord
  deriving DecidableEq

/-- The body of the result loop of `search_similar` (source lines
102-111) for one raw `(position, distance)` pair: positions that are
negative or absent from `id_to_memory` yield nothing, otherwise the raw
distance `d` becomes the similarity `1 / (1 + d)` (source line 105). -/
def searchEntry (s : LongTermMemory) (p : Int × ℚ) : Option SearchResult :=
  if (0 : Int) ≤ p.1 then
    match assocFind s.id_to_memory p.1.toNat with
    | some m =>
      some { id := p.1.toNat, similarity := 1 / (1 + p.2), distance := p.2, memory := m }
    | none => none
  else none

/-- `LongTermMemory.search_similar` (source lines 76-116): empty index
short-circuits to `[]`; otherwise the raw `(position, distance)` pairs
returned by the external FAISS search are converted by `searchEntry`. -/
def LongTermMemory.search_similar (s : LongTermMemory) (raw : List (Int × ℚ)) :
    List SearchResult :=
  if s.index.length = 0 then []
  else raw.filterMap (searchEntry s)

/-- `LongTermMemory.get_memory` (source lines 118-120). -/
def LongTermMemory.get_memory (s : LongTermMemory) (memory_id : Nat) : Option MemRecord :=
  assocFind s.id_to_memory memory_id

/-- `LongTermMemory.update_memory` (source lines 122-139): unknown id
returns False with no change; `if text:` takes only a non-empty string,
`if metadata:` only a non-empty dict; `updated_at` is always stamped on
the found record; returns True. -/
def LongTermMemory.update_memory (s : LongTermMemory) (memory_id : Nat)
    (text : Option String) (md : Option Meta) (now : Nat) : Bool × LongTermMemory :=
  match assocFind s.id_to_memory memory_id with
  | none => (false, s)
  | some _ =>
    let d1 :=
      match text with
      | some t =>
        if t ≠ "" then assocModify s.id_to_memory memory_id (fun r => { r with text := t })
        else s.id_to_memory
      | none => s.id_to_memory
    let d2 :=
      match md with
      | some m =>
        if m ≠ [] then
          assocModify d1 memory_id (fun r => { r with metadata := dictUpdate r.metadata m })
        else d1
      | none => d1
    let d3 := assocModify d2 memory_id (fun r => { r with updated_at := some now })
    (true, { s with id_to_memory := d3 })

/-- `LongTermMemory.delete_memory` (source lines 141-151): logical delete
stamping `deleted_at`; the index is untouched. -/
def LongTermMemory.delete_memory (s : LongTermMemory) (memory_id : Nat) (now : Nat) :
    Bool × LongTermMemory :=
  match assocFind s.id_to_memory memory_id with
  | some _ =>
    (true,
      { s with
        id_to_memory :=
          assocModify s.id_to_memory memory_id (fun r => { r with deleted_at := some now }) })
  | none => (false, s)

/-- The two exception classes distinguished by `load_index` (source lines
204-209): FileNotFoundError versus any other fault.  Both produce the
return value False. -/
inductive LoadFault where
  | notFound
  | ioFault
  deriving DecidableEq

/-- `max(int(k) for k in keys)` over the loaded table (source line 200);
only used on a non-empty table, where folding `Nat.max` from 0 agrees
with the Python `max`. -/
def maxKey (tbl : List (Nat × MemRecord)) : Nat :=
  (tbl.map Prod.fst).foldl Nat.max 0

/-- `LongTermMemory.load_index` (source lines 179-209).  The source first
assigns `self.index = faiss.read_index(index_path)`, then reads and parses
the map file into `self.id_to_memory`, then recomputes `next_id` only when
the loaded table is non-empty (`if self.id_to_memory:`).  An exception at
any point is caught and the call returns False, leaving whatever had
already been assigned. -/
def LongTermMemory.load_index (s : LongTermMemory)
    (indexFile : Except LoadFault (List Vec))
    (mapFile : Except LoadFault (List (Nat × MemRecord))) : Bool × LongTermMemory :=
  match indexFile with
  | .error _ => (false, s)
  | .ok idx =>
    match mapFile with
    | .error _ => (false, { s with index := idx })
    | .ok tbl =>
      let s1 := { s with index := idx, id_to_memory := tbl }
      let s2 := if tbl.isEmpty then s1 else { s1 with next_id := maxKey tbl + 1 }
      (true, s2)

/-- `LongTermMemory._count_by_type` (source lines 220-226). -/
def countByType (d : List (Nat × MemRecord)) : List (String × Nat) :=
  d.foldl
    (fun counts p =>
      let t := (assocFind p.2.metadata "type").getD "unknown"
      assocSet counts t ((assocFind counts t).getD 0 + 1))
    []

/-- The dict returned by `LongTermMemory.get_stats` (source lines 211-218). -/
structure MemStats where
  total_memories : Nat
  index_size : Nat
  vector_dim : Nat
  memories_by_type : List (String × Nat)
  deriving DecidableEq

/-- `LongTermMemory.get_stats` (source lines 211-218): `len(id_to_memory)`
and `index.ntotal`. -/
def LongTermMemory.get_stats (s : LongTermMemory) : MemStats :=
  { total_memories := s.id_to_memory.length,
    index_size := s.index.length,
    vector_dim := s.vector_dim,
    memories_by_type := countByType s.id_to_memory }

/-- A call against one `LongTermMemory` instance, for sequences of calls. -/
inductive LTMOp where
  | add (text : String) (md : Meta) (now : Nat)
  | update (memory_id : Nat) (text : Option String) (md : Option Meta) (now : Nat)
  | del (memory_id : Nat) (now : Nat)

/-- Run a sequence of LongTermMemory calls, collecting the ids returned by
the successful `add_memory` calls (an add whose embedding raises returns
no id and, per the source, mutates nothing). -/
def runOps (embed : String → Except String Vec) :
    LongTermMemory → List LTMOp → List Nat × LongTermMemory
  | s, [] => ([], s)
  | s, op :: ops =>
    let step : List Nat × LongTermMemory :=
      match op with
      | .add text md now =>
        match s.add_memory embed text md now with
        | .error _ => ([], s)
        | .ok r => ([r.1], r.2)
      | .update mid t md now => ([], (s.update_memory mid t md now).2)
      | .del mid now => ([], (s.delete_memory mid now).2)
    let rest := runOps embed step.2 ops
    (step.1 ++ rest.1, rest.2)

/-- The internal well-formedness of a LongTermMemory state: the index and
the record table have the same size (the record/vector pairing invariant)
and every stored id is below the id counter.  Holds for the fresh state
and is preserved by every mutating call, as proved below. -/
def GoodLTM (s : LongTermMemory) : Prop :=
  s.index.length = s.id_to_memory.length ∧
  ∀ x ∈ s.id_to_memory.map Prod.fst, x < s.next_id

/-- The turn dict built by `WorkingMemory.add_context` (source lines 60-65). -/
structure Turn where
  role : String
  content : String
  timestamp : Nat
  metadata : Meta
  deriving DecidableEq

/-- State of `WorkingMemory`: the Redis contents keyed by session id plus
an availability flag standing for the reachability of the Redis client
(any client exception inside an operation is caught and turned into the
failure result). -/
structure WorkingMemory where
  available : Bool
  sessions : List (String × List Turn)
  window_size : Nat
  deriving DecidableEq

/-- Python slice `l[-n:]` on a list, for a natural `n`: for `n = 0` the
slice is `l[0:]`, the whole list (this is why a window size of 0 never
truncates, see the counterexample below); for `n ≥ 1` it is the last `n`
elements. -/
def takeLastPy (n : Nat) (l : List Turn) : List Turn :=
  if n = 0 then l else l.drop (l.length - n)

/-- The append-then-truncate step of `add_context` (source lines 73-78):
append the turn, then if the list exceeds the window keep
`existing_list[-window_size:]`. -/
def winAdd (n : Nat) (l : List Turn) (t : Turn) : List Turn :=
  let l2 := l ++ [t]
  if l2.length > n then takeLastPy n l2 else l2

/-- `WorkingMemory.add_context` (source lines 45-92): read the session
list, append the new turn, apply the sliding window, write the list back
(and reset the TTL), returning True; any Redis fault is caught and
returned as False. -/
def WorkingMemory.add_context (w : WorkingMemory) (session_id role content : String)
    (md : Meta) (now : Nat) : Bool × WorkingMemory :=
  if w.available then
    let round_data : Turn := { role := role, content := content, timestamp := now, metadata := md }
    let existing_list := (assocFind w.sessions session_id).getD []
    (true, { w with sessions := assocSet w.sessions session_id (winAdd w.window_size existing_list round_data) })
  else (false, w)

/-- `WorkingMemory.get_context` (source lines 94-110): the stored list,
`[]` for a missing session; a Redis fault is caught and returned as `[]`. -/
def WorkingMemory.get_context (w : WorkingMemory) (session_id : String) : List Turn :=
  if w.available then (assocFind w.sessions session_id).getD [] else []

/-- A freshly initialized WorkingMemory with a reachable store. -/
def freshWM (n : Nat) : WorkingMemory :=
  { available := true, sessions := [], window_size := n }

/-- One `add_context` call of a call sequence: its role, content, metadata
and wall-clock arguments. -/
structure TurnInput where
  role : String
  content : String
  metadata : Meta
  now : Nat
  deriving DecidableEq

/-- The turn that `add_context` builds from one call. -/
def TurnInput.toTurn (x : TurnInput) : Turn :=
  { role := x.role, content := x.content, timestamp := x.now, metadata := x.metadata }

/-- Run a sequence of `add_context` calls on one session. -/
def runAddContext : WorkingMemory → String → List TurnInput → WorkingMemory
  | w, _, [] => w
  | w, sid, x :: xs =>
    runAddContext (w.add_context sid x.role x.content x.metadata x.now).2 sid xs

/-- True when every `add_context` call of the sequence returned True. -/
def runAddContextOk : WorkingMemory → String → List TurnInput → Bool
  | _, _, [] => true
  | w, sid, x :: xs =>
    let r := w.add_context sid x.role x.content x.metadata x.now
    r.1 && runAddContextOk r.2 sid xs

/-- `MemoryPriority` (memory_manager.py lines 14-19). -/
inductive MemoryPriority where
  | low
  | medium
  | high
  | critical
  deriving DecidableEq

/-- The Python enum member name, as used for the metadata tag
`priority.name` (memory_manager.py line 81). -/
def MemoryPriority.pyName : MemoryPriority → String
  | .low => "LOW"
  | .medium => "MEDIUM"
  | .high => "HIGH"
  | .critical => "CRITICAL"

/-- State of `MemoryManager`: the two composed stores. -/
structure MemoryManager where
  working_memory : WorkingMemory
  long_term_memory : LongTermMemory
  deriving DecidableEq

/-- The tag dict `add_interaction` builds before merging in the caller
metadata (memory_manager.py lines 78-84). -/
def interactionTags (session_id role : String) (p : MemoryPriority) : Meta :=
  [("session_id", session_id), ("role", role), ("priority", p.pyName), ("type", "interaction")]

/-- `MemoryManager.add_interaction` (memory_manager.py lines 51-91).  The
boolean returned by `working_memory.add_context` is not inspected by the
source (line 69: the call is a bare statement), so a working-memory
failure does not influence the returned value.  Only an exception raised
by `long_term_memory.add_memory` (reached only for HIGH/CRITICAL) lands
in the except branch and yields False; every other path returns True.
The return type is a single boolean. -/
def MemoryManager.add_interaction (embed : String → Except String Vec)
    (m : MemoryManager) (session_id role content : String)
    (p : MemoryPriority) (md : Meta) (now : Nat) : Bool × MemoryManager :=
  let wmResult := m.working_memory.add_context session_id role content md now
  let m1 : MemoryManager := { m with working_memory := wmResult.2 }
  if p = .high ∨ p = .critical then
    match m1.long_term_memory.add_memory embed content
        (dictUpdate (interactionTags session_id role p) md) now with
    | .error _ => (false, m1)
    | .ok r => (true, { m1 with long_term_memory := r.2 })
  else (true, m1)

/-- `Except` success as a boolean (Python: the call returned rather than
raised). -/
def exceptToBool {ε α : Type} : Except ε α → Bool
  | .ok _ => true
  | .error _ => false

/-- Summarizer texts are character lists, so that Python string length,
slicing and rstrip are literal list operations. -/
abbrev Text := List Char

/-- `max(texts, key=len)` on `t :: ts`: Python max keeps the earliest
element of maximal key, replacing only on a strictly greater key. -/
def pyMaxByLen (t : Text) (ts : List Text) : Text :=
  ts.foldl (fun b x => if b.length < x.length then x else b) t

/-- Python `str.rstrip()`: drop trailing whitespace. -/
def rstrip (l : Text) : Text :=
  (l.reverse.dropWhile Char.isWhitespace).reverse

/-- The ellipsis marker `"..."` appended on truncation. -/
def ellipsisMarker : Text := ['.', '.', '.']

/-- `RuleBasedSummarizer.summarize` (memory_summarizer.py lines 35-60):
empty input gives the empty string; otherwise take the longest text,
return it whole if it fits in `max_length`, else truncate to
`max_length`, strip trailing whitespace, and append the ellipsis when the
result is shorter than the original (which in this branch it always is). -/
def ruleBasedSummarize (texts : List Text) (max_length : Nat) : Text :=
  match texts with
  | [] => []
  | t :: ts =>
    let longest := pyMaxByLen t ts
    if longest.length ≤ max_length then longest
    else
      let summary := rstrip (longest.take max_length)
      if summary.length < longest.length then summary ++ ellipsisMarker else summary

/-- An input record of `summarize_memories`: the optional text field
(`m.get('text')`) and the optional id field (`'id' in m`). -/
structure SumRecord where
  text : Option Text
  id : Option Int
  deriving DecidableEq

/-- Python truthiness of `m.get('text')`: the key is present and the
string is non-empty. -/
def SumRecord.truthyText (m : SumRecord) : Bool :=
  match m.text with
  | some t => !t.isEmpty
  | none => false

/-- The result dict of `summarize_memories` (memory_summarizer.py lines
220-242).  The early-return dict for empty input has no original_length
key, hence the `Option`. -/
structure SummaryResult where
  summary : Text
  source_count : Nat
  source_ids : List Int
  created_at : Nat
  topic : String
  original_length : Option Nat
  deriving DecidableEq

/-- State of `MemorySummarizer` (memory_summarizer.py lines 184-195): the
active strategy and the append-only summary history. -/
structure MemorySummarizer where
  strategy : List Text → Nat → Text
  summary_history : List SummaryResult

/-- `MemorySummarizer.summarize_memories` (memory_summarizer.py lines
197-252): empty input returns the empty result without touching the
history; otherwise texts are the non-empty text fields, source_ids the id
field of every record that has one, the strategy produces the summary,
and the result is appended to the history. -/
def MemorySummarizer.summarize_memories (s : MemorySummarizer)
    (memories : List SumRecord) (max_length : Nat) (topic : String) (now : Nat) :
    SummaryResult × MemorySummarizer :=
  if memories.isEmpty then
    ({ summary := [], source_count := 0, source_ids := [], created_at := now,
       topic := topic, original_length := none }, s)
  else
    let texts := (memories.filter SumRecord.truthyText).map (fun m => m.text.getD [])
    let source_ids := memories.filterMap SumRecord.id
    let summary := s.strategy texts max_length
    let result : SummaryResult :=
      { summary := summary, source_count := texts.length, source_ids := source_ids,
        created_at := now, topic := topic,
        original_length := some ((texts.map List.length).sum) }
    (result, { s with summary_history := s.summary_history ++ [result] })

/-! Concrete states and inputs used by the closed counterexamples and
witnesses below. -/

/-- An embedder that always succeeds with a one-dimensional vector. -/
def embedOk : String → Except String Vec := fun _ => .ok [(0 : ℚ)]

/-- A WorkingMemory whose Redis client is unreachable: every `add_context`
call takes the except branch and returns False. -/
def wmDown : WorkingMemory :=
  { available := false, sessions := [], window_size := 10 }

/-- A manager whose working-memory store is down but whose long-term side
is healthy. -/
def mmDown : MemoryManager :=
  { working_memory := wmDown, long_term_memory := LongTermMemory.fresh 1 }

/-- A manager over reachable stores. -/
def mm0 : MemoryManager :=
  { working_memory := freshWM 10, long_term_memory := LongTermMemory.fresh 1 }

/-- A stored record with id 0. -/
def rec0 : MemRecord :=
  { text := "hello", metadata := [("type", "fact")], created_at := 0, id := 0 }

/-- A LongTermMemory holding one record and its vector. -/
def ltm1 : LongTermMemory :=
  { index := [[(1 : ℚ)]], id_to_memory := [(0, rec0)], next_id := 1, vector_dim := 1 }

/-- A LongTermMemory whose id counter has advanced to 5 while its table is
empty (as after five adds followed by loading an empty snapshot). -/
def ltm5 : LongTermMemory :=
  { index := [], id_to_memory := [], next_id := 5, vector_dim := 1 }

/-- Raw index search output: position 0 at distance 0, position 0 at
distance 1 (the index may report the same position twice across queries;
only the per-pair conversion matters here). -/
def rawPairs : List (Int × ℚ) := [(0, 0), (0, 1)]

/-- The search result built from distance 0. -/
def resNear : SearchResult := { id := 0, similarity := 1, distance := 0, memory := rec0 }

/-- The search result built from distance 1. -/
def resFar : SearchResult := { id := 0, similarity := 1 / 2, distance := 1, memory := rec0 }

/-- Two concrete `add_context` call inputs. -/
def tin1 : TurnInput := { role := "user", content := "hi", metadata := [], now := 0 }

/-- A second concrete `add_context` call input. -/
def tin2 : TurnInput := { role := "agent", content := "hello", metadata := [], now := 1 }

/-- A summarizer in its default configuration (rule-based strategy, empty
history). -/
def ms0 : MemorySummarizer := { strategy := ruleBasedSummarize, summary_history := [] }

/-- Concrete summarizer input: one record with text and id, one with an
empty text but an id, one with neither. -/
def sumRecs : List SumRecord :=
  [ { text := some ['a'], id := some 2 },
    { text := some [], id := some 5 },
    { text := none, id := none } ]

/-- A 20-character text exceeding the witness length threshold of 10. -/
def longText : Text :=
  ['a', ' ', 'm', 'u', 'c', 'h', ' ', 'l', 'o', 'n', 'g', 'e', 'r', ' ', 's', 't', 'r', 'i', 'n', 'g']

/-- Concrete texts for the extractive-summarizer witness: a short text and
a longer one exceeding the length threshold. -/
def sumTexts : List Text := [['a'], longText]

/-! Association-list lemmas (Python dict behaviour). -/

theorem assocFind_assocModify_self {κ α : Type} [DecidableEq κ]
    (d : List (κ × α)) (k : κ) (f : α → α) :
    assocFind (assocModify d k f) k = (assocFind d k).map f := by
  induction d with
  | nil => rfl
  | cons p rest ih =>
    by_cases h : p.1 = k
    · simp [assocFind, assocModify, h]
    · simp only [assocModify, List.map_cons, if_neg h, assocFind]
      simpa [assocModify] using ih

theorem assocFind_assocModify_ne {κ α : Type} [DecidableEq κ]
    (d : List (κ × α)) (k k' : κ) (f : α → α) (h : k' ≠ k) :
    assocFind (assocModify d k f) k' = assocFind d k' := by
  induction d with
  | nil => rfl
  | cons p rest ih =>
    by_cases hp : p.1 = k
    · have hp' : p.1 ≠ k' := fun hc => h (hc ▸ hp)
      simp only [assocModify, List.map_cons, if_pos hp, assocFind, if_neg hp']
      simpa [assocModify] using ih
    · by_cases hq : p.1 = k'
      · simp only [assocModify, List.map_cons, if_neg hp, assocFind, if_pos hq]
      · simp only [assocModify, List.map_cons, if_neg hp, assocFind, if_neg hq]
        simpa [assocModify] using ih

theorem assocFind_append_of_none {κ α : Type} [DecidableEq κ]
    (d e : List (κ × α)) (k : κ) (h : assocFind d k = none) :
    assocFind (d ++ e) k = assocFind e k := by
  induction d with
  | nil => rfl
  | cons p rest ih =>
    by_cases hp : p.1 = k
    · simp [assocFind, hp] at h
    · simp [assocFind, hp] at h ⊢
      exact ih h

theorem assocFind_assocSet_self {κ α : Type} [DecidableEq κ]
    (d : List (κ × α)) (k : κ) (v : α) :
    assocFind (assocSet d k v) k = some v := by
  unfold assocSet
  by_cases h : (assocFind d k).isSome
  · rcases Option.isSome_iff_exists.mp h with ⟨w, hw⟩
    simp [h, assocFind_assocModify_self, hw]
  · have hn : assocFind d k = none := Option.not_isSome_iff_eq_none.mp h
    simp [h, assocFind_append_of_none d _ k hn, assocFind]

theorem length_assocModify {κ α : Type} [DecidableEq κ]
    (d : List (κ × α)) (k : κ) (f : α → α) :
    (assocModify d k f).length = d.length := by
  simp [assocModify]

theorem mem_assocModify_key {κ α : Type} [DecidableEq κ]
    {d : List (κ × α)} {k : κ} {f : α → α} {p : κ × α}
    (h : p ∈ assocModify d k f) : ∃ q ∈ d, p.1 = q.1 := by
  unfold assocModify at h
  rcases List.mem_map.mp h with ⟨q, hq, he⟩
  refine ⟨q, hq, ?_⟩
  by_cases hk : q.1 = k <;> simp [hk] at he <;> simp [← he, hk]

theorem assocFind_isSome_iff {κ α : Type} [DecidableEq κ]
    (d : List (κ × α)) (k : κ) :
    (assocFind d k).isSome = true ↔ ∃ q ∈ d, q.1 = k := by
  induction d with
  | nil => simp [assocFind]
  | cons p rest ih =>
    by_cases hp : p.1 = k <;> simp [assocFind, hp, ih]

/-! Lemmas about `foldl Nat.max`, characterizing the Python `max`. -/

theorem init_le_foldlMax (l : List Nat) (a : Nat) : a ≤ l.foldl Nat.max a := by
  induction l generalizing a with
  | nil => exact le_refl a
  | cons x xs ih =>
    exact le_trans (Nat.le_max_left a x) (ih (Nat.max a x))

theorem le_foldlMax (l : List Nat) (a x : Nat) (hx : x ∈ l) :
    x ≤ l.foldl Nat.max a := by
  induction l generalizing a with
  | nil => cases hx
  | cons y ys ih =>
    rcases List.mem_cons.mp hx with h | h
    · subst h
      exact le_trans (Nat.le_max_right a x) (init_le_foldlMax ys (Nat.max a x))
    · exact ih (Nat.max a y) h

theorem foldlMax_mem_or_init (l : List Nat) (a : Nat) :
    l.foldl Nat.max a = a ∨ l.foldl Nat.max a ∈ l := by
  induction l generalizing a with
  | nil => exact Or.inl rfl
  | cons x xs ih =>
    rcases ih (Nat.max a x) with h | h
    · rw [List.foldl_cons, h]
      rcases Nat.le_total a x with hle | hle
      · exact Or.inr (List.mem_cons.mpr (Or.inl (Nat.max_eq_right hle)))
      · exact Or.inl (Nat.max_eq_left hle)
    · rw [List.foldl_cons]
      exact Or.inr (List.mem_cons_of_mem x h)

theorem foldlMax_attained (l : List Nat) (h : l ≠ []) :
    ∃ x ∈ l, l.foldl Nat.max 0 = x := by
  rcases foldlMax_mem_or_init l 0 with h0 | hmem
  · cases l with
    | nil => exact absurd rfl h
    | cons y ys =>
      refine ⟨y, List.mem_cons_self y ys, ?_⟩
      have hy : y ≤ (y :: ys).foldl Nat.max 0 :=
        le_foldlMax (y :: ys) 0 y (List.mem_cons_self y ys)
      omega
  · exact ⟨_, hmem, rfl⟩

/-!
C1.  The claim requires a composite result in which a working-memory
failure and a long-term failure are independently visible, and requires
the call to report failure when the working-memory append fails.  The
source returns a single boolean and never inspects the boolean returned
by `working_memory.add_context`, so a failed working-memory append is
reported as success.
-/

/-- C1 counterexample: with the Redis store down, `add_context` itself
reports failure, yet `add_interaction` (priority LOW, so no long-term
write is required) returns True — the claimed "reports failure if the
working-memory append fails" is false, and the returned value is one
boolean in which partial failure is invisible. -/
theorem addInteraction_ignores_wm_failure_cex :
    (wmDown.add_context "s" "user" "x" [] 0).1 = false ∧
    (mmDown.add_interaction embedOk "s" "user" "x" MemoryPriority.low [] 0).1 = true := by
  constructor <;> rfl

/-- C1 amended: `add_interaction` returns a single boolean equal to
success of the long-term write when priority is HIGH or CRITICAL and True
otherwise; in particular it does not depend on the working-memory result,
so a working-memory failure is masked and partial failure is not
distinguishable in the returned value. -/
theorem addInteraction_result_formula (embed : String → Except String Vec)
    (m : MemoryManager) (sid role content : String) (p : MemoryPriority)
    (md : Meta) (now : Nat) :
    (m.add_interaction embed sid role content p md now).1 =
      (if p = .high ∨ p = .critical then exceptToBool (embed content) else true) := by
  unfold MemoryManager.add_interaction
  by_cases hp : p = .high ∨ p = .critical
  · simp only [hp, if_true]
    cases h : embed content <;>
      simp [LongTermMemory.add_memory, h, exceptToBool]
  · simp [hp]

/-!
C2.  `load_index` assigns the freshly read index to `self.index` before it
opens the map file.  When the index artifact loads but the map artifact
fails, the call returns False with the index already replaced, so the
state is not unchanged and the record/vector pairing can be broken.
-/

/-- C2 counterexample: on `ltm1` (one record, one vector), an index
artifact holding zero vectors loads and then the map read fails: the call
reports failure, yet the state differs from the original and its index
size (0) no longer matches its record count (1). -/
theorem load_index_partial_mutation_cex :
    (ltm1.load_index (.ok []) (.error .notFound)).1 = false ∧
    (ltm1.load_index (.ok []) (.error .notFound)).2 ≠ ltm1 ∧
    (ltm1.load_index (.ok []) (.error .notFound)).2.index.length ≠
      (ltm1.load_index (.ok []) (.error .notFound)).2.id_to_memory.length := by
  refine ⟨rfl, ?_, by decide⟩
  intro h
  have : ([] : List Vec) = ltm1.index := congrArg LongTermMemory.index h
  simp [ltm1] at this

/-- C2 amended: a load that fails because the index artifact itself cannot
be read leaves the state exactly unchanged; but when the index artifact is
read successfully and the map artifact then fails, the call returns
failure with the similarity index already replaced (record table and
next-id counter unchanged), so the record/vector pairing invariant need
not survive a failed load. -/
theorem load_index_failure_state :
    (∀ (s : LongTermMemory) (f : LoadFault)
        (mapFile : Except LoadFault (List (Nat × MemRecord))),
      s.load_index (.error f) mapFile = (false, s)) ∧
    (∀ (s : LongTermMemory) (idx : List Vec) (f : LoadFault),
      s.load_index (.ok idx) (.error f) = (false, { s with index := idx })) :=
  ⟨fun _ _ _ => rfl, fun _ _ _ => rfl⟩

/-!
C3.  After a successful load the source recomputes `next_id` only under
`if self.id_to_memory:`.  With a non-empty loaded table the counter is
`max(ids) + 1` as claimed, but with an empty loaded table the counter
keeps its prior value instead of becoming 0.
-/

/-- C3 counterexample: loading an empty snapshot into an instance whose
counter is 5 succeeds and leaves the counter at 5, not the claimed 0. -/
theorem load_index_empty_keeps_next_id_cex :
    (ltm5.load_index (.ok []) (.ok [])).1 = true ∧
    (ltm5.load_index (.ok []) (.ok [])).2.next_id = 5 := by
  exact ⟨rfl, rfl⟩

/-- C3 amended: a successful load replaces index and table with the loaded
artifacts and sets the next-id counter to `max(loaded ids) + 1` when the
loaded table is non-empty — regardless of the prior counter — while an
empty loaded table leaves the prior counter in place; `maxKey` is indeed
the maximum of the loaded ids (it bounds every id and is attained). -/
theorem load_index_next_id_recompute (s : LongTermMemory) (idx : List Vec)
    (tbl : List (Nat × MemRecord)) :
    (s.load_index (.ok idx) (.ok tbl)).1 = true ∧
    (s.load_index (.ok idx) (.ok tbl)).2.next_id =
      (if tbl.isEmpty then s.next_id else maxKey tbl + 1) ∧
    (s.load_index (.ok idx) (.ok tbl)).2.id_to_memory = tbl ∧
    (s.load_index (.ok idx) (.ok tbl)).2.index = idx ∧
    (∀ q ∈ tbl, q.1 ≤ maxKey tbl) ∧
    (tbl ≠ [] → ∃ q ∈ tbl, q.1 = maxKey tbl) := by
  refine ⟨?_, ?_, ?_, ?_, ?_, ?_⟩
  · unfold LongTermMemory.load_index
    by_cases h : tbl.isEmpty <;> simp [h]
  · unfold LongTermMemory.load_index
    by_cases h : tbl.isEmpty <;> simp [h]
  · unfold LongTermMemory.load_index
    by_cases h : tbl.isEmpty <;> simp [h]
  · unfold LongTermMemory.load_index
    by_cases h : tbl.isEmpty <;> simp [h]
  · intro q hq
    have : q.1 ∈ tbl.map Prod.fst := List.mem_map_of_mem Prod.fst hq
    exact le_foldlMax (tbl.map Prod.fst) 0 q.1 this
  · intro h
    have hne : tbl.map Prod.fst ≠ [] := by simpa using h
    rcases foldlMax_attained (tbl.map Prod.fst) hne with ⟨x, hx, hxe⟩
    rcases List.mem_map.mp hx with ⟨q, hq, hqe⟩
    exact ⟨q, hq, hqe.trans hxe.symm⟩

/-- C3 witness: loading a snapshot whose table holds the single id 4 into
the instance whose counter was 5 sets the counter to `max + 1 = 5`, and
the maximum is attained in the table. -/
theorem load_index_next_id_recompute_witness :
    (ltm5.load_index (.ok []) (.ok [(4, rec0)])).2.next_id = 5 ∧
    ∃ q ∈ [((4 : Nat), rec0)], q.1 = maxKey [(4, rec0)] := by
  have h := load_index_next_id_recompute ltm5 [] [(4, rec0)]
  refine ⟨?_, h.2.2.2.2.2 (by decide)⟩
  rw [h.2.1]
  decide

/-!
C7.  Every result of `search_similar` carries `similarity = 1 / (1 + d)`
for its own raw distance `d`; for non-negative distances the similarity
is in (0, 1] and strictly decreases as the distance increases.
-/

theorem searchEntry_shape (s : LongTermMemory) (p : Int × ℚ) (r : SearchResult)
    (h : searchEntry s p = some r) :
    r.similarity = 1 / (1 + r.distance) := by
  unfold searchEntry at h
  split at h
  · split at h
    · injection h with h'
      subst h'
      rfl
    · cases h
  · cases h

theorem search_similar_shape (s : LongTermMemory) (raw : List (Int × ℚ))
    (r : SearchResult) (hr : r ∈ s.search_similar raw) :
    r.similarity = 1 / (1 + r.distance) := by
  unfold LongTermMemory.search_similar at hr
  split at hr
  · cases hr
  · rcases List.mem_filterMap.mp hr with ⟨p, _, hf⟩
    exact searchEntry_shape s p r hf

/-- C7: for any two results `a`, `b` of one `search_similar` call, the
similarity of `a` equals `1 / (1 + distance a)`; when the distance is
non-negative the similarity lies in the half-open interval (0, 1]; and a
strictly smaller non-negative distance gives a strictly larger
similarity. -/
theorem search_similarity_monotone (s : LongTermMemory) (raw : List (Int × ℚ))
    (a b : SearchResult) (ha : a ∈ s.search_similar raw)
    (hb : b ∈ s.search_similar raw) :
    a.similarity = 1 / (1 + a.distance) ∧
    (0 ≤ a.distance → 0 < a.similarity ∧ a.similarity ≤ 1) ∧
    (0 ≤ a.distance → a.distance < b.distance → b.similarity < a.similarity) := by
  have hsa := search_similar_shape s raw a ha
  have hsb := search_similar_shape s raw b hb
  refine ⟨hsa, ?_, ?_⟩
  · intro hd
    have h1 : (0 : ℚ) < 1 + a.distance := by linarith
    constructor
    · rw [hsa]
      exact one_div_pos.mpr h1
    · rw [hsa, div_le_one h1]
      linarith
  · intro hd hab
    have h1 : (0 : ℚ) < 1 + a.distance := by linarith
    have h2 : 1 + a.distance < 1 + b.distance := by linarith
    rw [hsa, hsb]
    exact one_div_lt_one_div_of_lt h1 h2

/-- C7 witness: on the one-record store, the raw pairs at distances 0 and
1 produce similarities 1 and 1/2, ordered as the theorem states. -/
theorem search_similarity_monotone_witness :
    resFar.similarity < resNear.similarity ∧
    resNear.similarity = 1 / (1 + resNear.distance) ∧
    0 < resNear.similarity ∧ resNear.similarity ≤ 1 := by
  have hlist : ltm1.search_similar rawPairs = [resNear, resFar] := by
    norm_num [LongTermMemory.search_similar, searchEntry, ltm1, rawPairs, assocFind,
      resNear, resFar, rec0, List.filterMap_cons, List.filterMap_nil]
  have hmemN : resNear ∈ ltm1.search_similar rawPairs := by
    rw [hlist]
    exact List.mem_cons_self _ _
  have hmemF : resFar ∈ ltm1.search_similar rawPairs := by
    rw [hlist]
    exact List.mem_cons_of_mem _ (List.mem_cons_self _ _)
  have h := search_similarity_monotone ltm1 rawPairs resNear resFar hmemN hmemF
  have hin := h.2.1 (by decide)
  exact ⟨h.2.2 (by decide) (by decide), h.1, hin.1, hin.2⟩

/-!
C9.  `update_memory` with a falsy text (the empty string) and no metadata
changes nothing but the `updated_at` stamp on the addressed record and
returns True; for any arguments it never touches the index, the id
counter or other records; an unknown id returns False with no change.
-/

/-- C9: (1) on a stored id, the call with empty-string text and no
metadata succeeds and the record keeps its text and metadata, gaining only
the `updated_at` stamp; (2) for every text/metadata argument the index,
the next-id counter and every other record are unchanged; (3) an id not in
the table gives False and the state exactly unchanged. -/
theorem update_memory_frame (s : LongTermMemory) (memory_id : Nat) (now : Nat) :
    (∀ r, assocFind s.id_to_memory memory_id = some r →
      (s.update_memory memory_id (some "") none now).1 = true ∧
      assocFind (s.update_memory memory_id (some "") none now).2.id_to_memory memory_id
        = some { r with updated_at := some now }) ∧
    (∀ (t : Option String) (md : Option Meta),
      (s.update_memory memory_id t md now).2.index = s.index ∧
      (s.update_memory memory_id t md now).2.next_id = s.next_id ∧
      (∀ k, k ≠ memory_id →
        assocFind (s.update_memory memory_id t md now).2.id_to_memory k
          = assocFind s.id_to_memory k)) ∧
    (∀ (t : Option String) (md : Option Meta),
      assocFind s.id_to_memory memory_id = none →
      s.update_memory memory_id t md now = (false, s)) := by
  refine ⟨?_, ?_, ?_⟩
  · intro r hr
    constructor
    · simp [LongTermMemory.update_memory, hr]
    · simp only [LongTermMemory.update_memory, hr]
      rw [assocFind_assocModify_self, if_neg (fun h => h rfl), hr]
      rfl
  · intro t md
    cases hfind : assocFind s.id_to_memory memory_id with
    | none => simp [LongTermMemory.update_memory, hfind]
    | some r =>
      refine ⟨?_, ?_, ?_⟩
      · simp [LongTermMemory.update_memory, hfind]
      · simp [LongTermMemory.update_memory, hfind]
      · intro k hk
        simp only [LongTermMemory.update_memory, hfind]
        rw [assocFind_assocModify_ne _ _ _ _ hk]
        cases md with
        | none =>
          cases t with
          | none => rfl
          | some tv =>
            dsimp only
            by_cases ht : tv ≠ ""
            · rw [if_pos ht, assocFind_assocModify_ne _ _ _ _ hk]
            · rw [if_neg ht]
        | some mv =>
          dsimp only
          by_cases hm : mv ≠ []
          · rw [if_pos hm, assocFind_assocModify_ne _ _ _ _ hk]
            cases t with
            | none => rfl
            | some tv =>
              dsimp only
              by_cases ht : tv ≠ ""
              · rw [if_pos ht, assocFind_assocModify_ne _ _ _ _ hk]
              · rw [if_neg ht]
          · rw [if_neg hm]
            cases t with
            | none => rfl
            | some tv =>
              dsimp only
              by_cases ht : tv ≠ ""
              · rw [if_pos ht, assocFind_assocModify_ne _ _ _ _ hk]
              · rw [if_neg ht]
  · intro t md h
    simp [LongTermMemory.update_memory, h]

/-- C9 witness: on the one-record store, updating id 0 with empty text
succeeds and only stamps `updated_at`; updating the unknown id 3 fails
and leaves the state untouched. -/
theorem update_memory_frame_witness :
    (ltm1.update_memory 0 (some "") none 7).1 = true ∧
    assocFind (ltm1.update_memory 0 (some "") none 7).2.id_to_memory 0
      = some { rec0 with updated_at := some 7 } ∧
    ltm1.update_memory 3 none none 7 = (false, ltm1) := by
  have h0 := update_memory_frame ltm1 0 7
  have h3 := update_memory_frame ltm1 3 7
  refine ⟨(h0.1 rec0 ?_).1, (h0.1 rec0 ?_).2, h3.2.2 none none ?_⟩ <;> decide

theorem length_assocSet_of_none {κ α : Type} [DecidableEq κ]
    (d : List (κ × α)) (k : κ) (v : α) (h : (assocFind d k).isSome = false) :
    (assocSet d k v).length = d.length + 1 := by
  simp [assocSet, h]

/-!
C6.  Write routing by priority in `add_interaction`: LOW and MEDIUM leave
the long-term store untouched; a successful HIGH or CRITICAL call adds
exactly one record whose metadata is the four interaction tags merged
(caller wins) with the caller metadata.
-/

/-- C6: (1) priorities LOW and MEDIUM leave `total_memories` unchanged;
(2) a HIGH or CRITICAL call that succeeds, from any state whose next id is
unused (true of every reachable state), raises `total_memories` by exactly
one and stores under the fresh id a record with the given content and with
metadata `interactionTags` (session_id, role, priority name,
type=interaction) merged with the caller metadata, the caller metadata
winning on key clashes as Python `{**tags, **metadata}` does. -/
theorem priority_routing (embed : String → Except String Vec) (m : MemoryManager)
    (sid role content : String) (md : Meta) (now : Nat) :
    (∀ p, (p = MemoryPriority.low ∨ p = MemoryPriority.medium) →
      (m.add_interaction embed sid role content p md now).2.long_term_memory.get_stats.total_memories
        = m.long_term_memory.get_stats.total_memories) ∧
    (∀ p, (p = MemoryPriority.high ∨ p = MemoryPriority.critical) →
      (m.add_interaction embed sid role content p md now).1 = true →
      (assocFind m.long_term_memory.id_to_memory m.long_term_memory.next_id).isSome = false →
      (m.add_interaction embed sid role content p md now).2.long_term_memory.get_stats.total_memories
          = m.long_term_memory.get_stats.total_memories + 1 ∧
      assocFind (m.add_interaction embed sid role content p md now).2.long_term_memory.id_to_memory
          m.long_term_memory.next_id
        = some { text := content,
                 metadata := dictUpdate (interactionTags sid role p) md,
                 created_at := now, id := m.long_term_memory.next_id }) := by
  constructor
  · rintro p (rfl | rfl) <;>
      simp [MemoryManager.add_interaction, LongTermMemory.get_stats]
  · rintro p (rfl | rfl) htrue hfree <;>
    · cases hemb : embed content with
      | error e =>
        exfalso
        simp [MemoryManager.add_interaction, LongTermMemory.add_memory, hemb] at htrue
      | ok v =>
        constructor
        · simp [MemoryManager.add_interaction, LongTermMemory.add_memory, hemb,
            LongTermMemory.get_stats, length_assocSet_of_none _ _ _ hfree]
        · simp [MemoryManager.add_interaction, LongTermMemory.add_memory, hemb,
            assocFind_assocSet_self]

/-- C6 witness: on the fresh manager, a LOW interaction leaves the
long-term count at 0 and a HIGH interaction raises it to 1. -/
theorem priority_routing_witness :
    (mm0.add_interaction embedOk "s" "user" "x" MemoryPriority.low [] 0).2.long_term_memory.get_stats.total_memories
      = mm0.long_term_memory.get_stats.total_memories ∧
    (mm0.add_interaction embedOk "s" "user" "x" MemoryPriority.high [] 0).2.long_term_memory.get_stats.total_memories
      = mm0.long_term_memory.get_stats.total_memories + 1 := by
  have h := priority_routing embedOk mm0 "s" "user" "x" [] 0
  exact ⟨h.1 MemoryPriority.low (Or.inl rfl),
    (h.2 MemoryPriority.high (Or.inl rfl) (by decide) (by decide)).1⟩

/-!
C8.  The rule-based (extractive) summarizer.
-/

theorem pyMaxByLen_mem : ∀ (ts : List Text) (t : Text), pyMaxByLen t ts ∈ t :: ts := by
  intro ts
  induction ts with
  | nil => intro t; exact List.mem_cons_self _ _
  | cons x xs ih =>
    intro t
    have h := ih (if t.length < x.length then x else t)
    have hstep : pyMaxByLen t (x :: xs) =
        pyMaxByLen (if t.length < x.length then x else t) xs := rfl
    rw [hstep]
    rcases List.mem_cons.mp h with he | hm
    · rw [he]
      by_cases hc : t.length < x.length
      · rw [if_pos hc]
        exact List.mem_cons_of_mem _ (List.mem_cons_self _ _)
      · rw [if_neg hc]
        exact List.mem_cons_self _ _
    · exact List.mem_cons_of_mem _ (List.mem_cons_of_mem _ hm)

theorem le_pyMaxByLen : ∀ (ts : List Text) (t u : Text),
    u ∈ t :: ts → u.length ≤ (pyMaxByLen t ts).length := by
  intro ts
  induction ts with
  | nil =>
    intro t u hu
    rcases List.mem_cons.mp hu with he | hm
    · rw [he]
      exact le_refl _
    · cases hm
  | cons x xs ih =>
    intro t u hu
    have hstep : pyMaxByLen t (x :: xs) =
        pyMaxByLen (if t.length < x.length then x else t) xs := rfl
    rw [hstep]
    have hT : t.length ≤ (if t.length < x.length then x else t).length := by
      by_cases hc : t.length < x.length
      · rw [if_pos hc]; omega
      · rw [if_neg hc]
    have hX : x.length ≤ (if t.length < x.length then x else t).length := by
      by_cases hc : t.length < x.length
      · rw [if_pos hc]
      · rw [if_neg hc]; omega
    have hmax := ih (if t.length < x.length then x else t)
    have hhead := hmax (if t.length < x.length then x else t) (List.mem_cons_self _ _)
    rcases List.mem_cons.mp hu with he | hm
    · rw [he]
      exact le_trans hT hhead
    · rcases List.mem_cons.mp hm with he2 | hm2
      · rw [he2]
        exact le_trans hX hhead
      · exact hmax u (List.mem_cons_of_mem _ hm2)

theorem dropWhile_isSuffix (p : Char → Bool) : ∀ l : Text, ∃ u, u ++ l.dropWhile p = l := by
  intro l
  induction l with
  | nil => exact ⟨[], rfl⟩
  | cons a l ih =>
    by_cases h : p a = true
    · rcases ih with ⟨u, hu⟩
      exact ⟨a :: u, by rw [List.dropWhile_cons, if_pos h, List.cons_append, hu]⟩
    · exact ⟨[], by rw [List.dropWhile_cons, if_neg h, List.nil_append]⟩

theorem rstrip_isPrefixOf (l : Text) : rstrip l <+: l := by
  rcases dropWhile_isSuffix Char.isWhitespace l.reverse with ⟨u, hu⟩
  refine ⟨u.reverse, ?_⟩
  have hrev : (u ++ l.reverse.dropWhile Char.isWhitespace).reverse = l.reverse.reverse := by
    rw [hu]
  rw [List.reverse_append, List.reverse_reverse] at hrev
  simpa [rstrip] using hrev

theorem take_isPrefix (l : Text) (n : Nat) : l.take n <+: l :=
  ⟨l.drop n, List.take_append_drop n l⟩

/-- C8: the extractive summarizer returns the empty string on empty
input; on `t :: ts` the chosen text is a member of the input of maximal
length; when it fits in `max_length` it is returned whole; when it does
not, the output is that text truncated to `max_length` characters (with
trailing whitespace stripped, as the source does) plus the three-character
ellipsis marker, so the output length is at most `max_length + 3` and the
part before the marker is a prefix of the longest input of length at most
`max_length`. -/
theorem rule_summarize_spec (texts : List Text) (n : Nat) :
    (texts = [] → ruleBasedSummarize texts n = []) ∧
    (∀ t ts, texts = t :: ts →
      pyMaxByLen t ts ∈ texts ∧
      (∀ u ∈ texts, u.length ≤ (pyMaxByLen t ts).length) ∧
      ((pyMaxByLen t ts).length ≤ n → ruleBasedSummarize texts n = pyMaxByLen t ts) ∧
      (n < (pyMaxByLen t ts).length →
        ruleBasedSummarize texts n = rstrip ((pyMaxByLen t ts).take n) ++ ellipsisMarker ∧
        (ruleBasedSummarize texts n).length ≤ n + 3 ∧
        rstrip ((pyMaxByLen t ts).take n) <+: pyMaxByLen t ts ∧
        (rstrip ((pyMaxByLen t ts).take n)).length ≤ n)) := by
  constructor
  · rintro rfl
    rfl
  · rintro t ts rfl
    refine ⟨pyMaxByLen_mem ts t, le_pyMaxByLen ts t, ?_, ?_⟩
    · intro hle
      simp [ruleBasedSummarize, hle]
    · intro hgt
      have hnle : ¬ (pyMaxByLen t ts).length ≤ n := by omega
      have hlen : (rstrip ((pyMaxByLen t ts).take n)).length ≤ n := by
        have h1 : (rstrip ((pyMaxByLen t ts).take n)).length ≤
            ((pyMaxByLen t ts).take n).length := (rstrip_isPrefixOf _).length_le
        have h2 : ((pyMaxByLen t ts).take n).length ≤ n := by
          rw [List.length_take]; omega
        omega
      have hshort : (rstrip ((pyMaxByLen t ts).take n)).length < (pyMaxByLen t ts).length := by
        omega
      have heq : ruleBasedSummarize (t :: ts) n =
          rstrip ((pyMaxByLen t ts).take n) ++ ellipsisMarker := by
        simp [ruleBasedSummarize, hnle, hshort]
      refine ⟨heq, ?_, (rstrip_isPrefixOf _).trans (take_isPrefix _ n), hlen⟩
      rw [heq, List.length_append]
      have hm3 : ellipsisMarker.length = 3 := rfl
      omega

/-- C8 witness: on a one-character text and a 20-character text with
threshold 10, the output is within 13 characters and its body is a prefix
of the longer text. -/
theorem rule_summarize_spec_witness :
    (ruleBasedSummarize sumTexts 10).length ≤ 10 + 3 ∧
    rstrip ((pyMaxByLen ['a'] [longText]).take 10) <+: pyMaxByLen ['a'] [longText] := by
  have h := (rule_summarize_spec sumTexts 10).2 ['a'] [longText] rfl
  have h4 := h.2.2.2 (by decide)
  exact ⟨h4.2.1, h4.2.2.1⟩

/-!
C10.  `summarize_memories`: the empty input returns the empty result and
does not touch the history; any non-empty input appends exactly one entry,
with `source_count` counting the records with non-empty text and
`source_ids` listing the id of every record that has one.
-/

/-- C10: on `[]` the result is the empty SummaryResult (no
original_length key) and the history is untouched; on non-empty input the
history is the old history plus exactly the returned result, the returned
`source_count` is the number of records with a non-empty text field, and
`source_ids` collects the id of every record with an id, including those
whose empty text was skipped. -/
theorem summarize_memories_history (s : MemorySummarizer) (memories : List SumRecord)
    (n : Nat) (topic : String) (now : Nat) :
    (memories = [] →
      (s.summarize_memories memories n topic now).1 =
        { summary := [], source_count := 0, source_ids := [], created_at := now,
          topic := topic, original_length := none } ∧
      (s.summarize_memories memories n topic now).2.summary_history = s.summary_history) ∧
    (memories ≠ [] →
      (s.summarize_memories memories n topic now).2.summary_history
        = s.summary_history ++ [(s.summarize_memories memories n topic now).1] ∧
      (s.summarize_memories memories n topic now).1.source_count
        = (memories.filter SumRecord.truthyText).length ∧
      (s.summarize_memories memories n topic now).1.source_ids
        = memories.filterMap SumRecord.id) := by
  constructor
  · rintro rfl
    exact ⟨rfl, rfl⟩
  · intro hne
    have hE : memories.isEmpty = false := by
      cases memories with
      | nil => exact absurd rfl hne
      | cons a l => rfl
    refine ⟨?_, ?_, ?_⟩ <;>
      simp [MemorySummarizer.summarize_memories, hE, List.length_map]

/-- C10 witness: the empty call leaves the empty history; the three-record
call (one real text, one empty text with an id, one with neither) appends
one entry with source_count 1 and source_ids [2, 5]. -/
theorem summarize_memories_history_witness :
    (ms0.summarize_memories [] 10 "general" 3).2.summary_history = ms0.summary_history ∧
    (ms0.summarize_memories sumRecs 10 "general" 3).2.summary_history
      = ms0.summary_history ++ [(ms0.summarize_memories sumRecs 10 "general" 3).1] ∧
    (ms0.summarize_memories sumRecs 10 "general" 3).1.source_count = 1 ∧
    (ms0.summarize_memories sumRecs 10 "general" 3).1.source_ids = [2, 5] := by
  have h1 := summarize_memories_history ms0 ([] : List SumRecord) 10 "general" 3
  have h2 := summarize_memories_history ms0 sumRecs 10 "general" 3
  refine ⟨(h1.1 rfl).2, (h2.2 (by decide)).1, ?_, ?_⟩
  · exact ((h2.2 (by decide)).2.1).trans (by decide)
  · exact ((h2.2 (by decide)).2.2).trans (by decide)

/-!
C5.  Ids returned by `add_memory` are pairwise distinct and the stats
equality `index_size = total_memories` holds after every call of any
sequence of add/update/delete calls from a fresh instance.
-/

theorem keys_assocModify {κ α : Type} [DecidableEq κ] (d : List (κ × α)) (k : κ)
    (f : α → α) : (assocModify d k f).map Prod.fst = d.map Prod.fst := by
  induction d with
  | nil => rfl
  | cons p rest ih =>
    have ih2 : (rest.map fun q => if q.1 = k then (q.1, f q.2) else q).map Prod.fst
        = rest.map Prod.fst := by simpa [assocModify] using ih
    by_cases hp : p.1 = k
    · simp only [assocModify, List.map_cons, if_pos, if_neg, hp, ite_true, ite_false]
      exact congrArg (List.cons k) ih2
    · simp only [assocModify, List.map_cons, if_pos, if_neg, hp, ite_true, ite_false]
      exact congrArg (List.cons p.1) ih2

theorem assocSet_of_none {κ α : Type} [DecidableEq κ] (d : List (κ × α)) (k : κ)
    (v : α) (h : (assocFind d k).isSome = false) :
    assocSet d k v = d ++ [(k, v)] := by
  simp [assocSet, h]

theorem update_memory_shape (s : LongTermMemory) (mid : Nat) (t : Option String)
    (md : Option Meta) (now : Nat) :
    (s.update_memory mid t md now).2.id_to_memory.map Prod.fst
        = s.id_to_memory.map Prod.fst ∧
    (s.update_memory mid t md now).2.index = s.index ∧
    (s.update_memory mid t md now).2.next_id = s.next_id := by
  cases hfind : assocFind s.id_to_memory mid with
  | none => simp [LongTermMemory.update_memory, hfind]
  | some r =>
    refine ⟨?_, ?_, ?_⟩
    · simp only [LongTermMemory.update_memory, hfind]
      rw [keys_assocModify]
      cases md with
      | none =>
        cases t with
        | none => rfl
        | some tv =>
          dsimp only
          by_cases ht : tv ≠ ""
          · rw [if_pos ht, keys_assocModify]
          · rw [if_neg ht]
      | some mv =>
        dsimp only
        by_cases hm : mv ≠ []
        · rw [if_pos hm, keys_assocModify]
          cases t with
          | none => rfl
          | some tv =>
            dsimp only
            by_cases ht : tv ≠ ""
            · rw [if_pos ht, keys_assocModify]
            · rw [if_neg ht]
        · rw [if_neg hm]
          cases t with
          | none => rfl
          | some tv =>
            dsimp only
            by_cases ht : tv ≠ ""
            · rw [if_pos ht, keys_assocModify]
            · rw [if_neg ht]
    · simp [LongTermMemory.update_memory, hfind]
    · simp [LongTermMemory.update_memory, hfind]

theorem delete_memory_shape (s : LongTermMemory) (mid : Nat) (now : Nat) :
    (s.delete_memory mid now).2.id_to_memory.map Prod.fst
        = s.id_to_memory.map Prod.fst ∧
    (s.delete_memory mid now).2.index = s.index ∧
    (s.delete_memory mid now).2.next_id = s.next_id := by
  cases hfind : assocFind s.id_to_memory mid with
  | none => simp [LongTermMemory.delete_memory, hfind]
  | some r =>
    refine ⟨?_, ?_, ?_⟩
    · simp only [LongTermMemory.delete_memory, hfind]
      rw [keys_assocModify]
    · simp [LongTermMemory.delete_memory, hfind]
    · simp [LongTermMemory.delete_memory, hfind]

theorem goodLTM_of_shape {s s2 : LongTermMemory}
    (hg : GoodLTM s)
    (hk : s2.id_to_memory.map Prod.fst = s.id_to_memory.map Prod.fst)
    (hi : s2.index = s.index) (hn : s2.next_id = s.next_id) : GoodLTM s2 := by
  constructor
  · have hlen : s2.id_to_memory.length = s.id_to_memory.length := by
      have := congrArg List.length hk
      simpa using this
    rw [hi, hlen]
    exact hg.1
  · intro x hx
    rw [hk] at hx
    rw [hn]
    exact hg.2 x hx

theorem runOps_invariant (embed : String → Except String Vec) :
    ∀ (ops : List LTMOp) (s : LongTermMemory), GoodLTM s →
      GoodLTM (runOps embed s ops).2 ∧
      s.next_id ≤ (runOps embed s ops).2.next_id ∧
      (∀ i ∈ (runOps embed s ops).1,
        s.next_id ≤ i ∧ i < (runOps embed s ops).2.next_id) ∧
      ((runOps embed s ops).1).Pairwise (· < ·) := by
  intro ops
  induction ops with
  | nil =>
    intro s hg
    refine ⟨hg, le_refl _, ?_, List.Pairwise.nil⟩
    intro i hi
    cases hi
  | cons op ops ih =>
    intro s hg
    cases op with
    | add text md now =>
      cases hemb : embed text with
      | error e =>
        have hstep1 : (runOps embed s (LTMOp.add text md now :: ops)).1 =
            (runOps embed s ops).1 := by
          simp [runOps, LongTermMemory.add_memory, hemb]
        have hstep2 : (runOps embed s (LTMOp.add text md now :: ops)).2 =
            (runOps embed s ops).2 := by
          simp [runOps, LongTermMemory.add_memory, hemb]
        rw [hstep1, hstep2]
        exact ih s hg
      | ok v =>
        have hfree : (assocFind s.id_to_memory s.next_id).isSome = false := by
          cases hf : (assocFind s.id_to_memory s.next_id).isSome with
          | false => rfl
          | true =>
            exfalso
            rcases (assocFind_isSome_iff _ _).mp hf with ⟨q, hq, hqe⟩
            have hlt := hg.2 q.1 (List.mem_map_of_mem Prod.fst hq)
            omega
        have hset : assocSet s.id_to_memory s.next_id
            { text := text, metadata := md, created_at := now, id := s.next_id }
            = s.id_to_memory ++
              [(s.next_id,
                { text := text, metadata := md, created_at := now, id := s.next_id })] :=
          assocSet_of_none _ _ _ hfree
        have hstep1 : (runOps embed s (LTMOp.add text md now :: ops)).1 =
            s.next_id :: (runOps embed
                { s with
                  index := s.index ++ [v],
                  id_to_memory := assocSet s.id_to_memory s.next_id
                    { text := text, metadata := md, created_at := now, id := s.next_id },
                  next_id := s.next_id + 1 } ops).1 := by
          simp [runOps, LongTermMemory.add_memory, hemb]
        have hstep2 : (runOps embed s (LTMOp.add text md now :: ops)).2 =
            (runOps embed
                { s with
                  index := s.index ++ [v],
                  id_to_memory := assocSet s.id_to_memory s.next_id
                    { text := text, metadata := md, created_at := now, id := s.next_id },
                  next_id := s.next_id + 1 } ops).2 := by
          simp [runOps, LongTermMemory.add_memory, hemb]
        have hg2 : GoodLTM
            { s with
              index := s.index ++ [v],
              id_to_memory := assocSet s.id_to_memory s.next_id
                { text := text, metadata := md, created_at := now, id := s.next_id },
              next_id := s.next_id + 1 } := by
          constructor
          · simp only [hset, List.length_append, List.length_cons, List.length_nil]
            rw [hg.1]
          · intro x hx
            simp only [hset, List.map_append, List.map_cons, List.map_nil,
              List.mem_append, List.mem_cons, List.not_mem_nil, or_false] at hx
            rcases hx with hx | hx
            · have := hg.2 x hx
              show x < s.next_id + 1
              omega
            · show x < s.next_id + 1
              omega
        have hrec := ih _ hg2
        rw [hstep1, hstep2]
        refine ⟨hrec.1, ?_, ?_, ?_⟩
        · have h1 : s.next_id + 1 ≤ _ := hrec.2.1
          omega
        · intro i hi
          rcases List.mem_cons.mp hi with hi | hi
          · subst hi
            have h1 : s.next_id + 1 ≤ _ := hrec.2.1
            exact ⟨le_refl _, by omega⟩
          · have h1 : s.next_id + 1 ≤ i := (hrec.2.2.1 i hi).1
            exact ⟨by omega, (hrec.2.2.1 i hi).2⟩
        · refine List.Pairwise.cons ?_ hrec.2.2.2
          intro j hj
          have h1 : s.next_id + 1 ≤ j := (hrec.2.2.1 j hj).1
          omega
    | update mid t md now =>
      have hsh := update_memory_shape s mid t md now
      have hg2 := goodLTM_of_shape hg hsh.1 hsh.2.1 hsh.2.2
      have hstep1 : (runOps embed s (LTMOp.update mid t md now :: ops)).1 =
          (runOps embed (s.update_memory mid t md now).2 ops).1 := by
        simp [runOps]
      have hstep2 : (runOps embed s (LTMOp.update mid t md now :: ops)).2 =
          (runOps embed (s.update_memory mid t md now).2 ops).2 := by
        simp [runOps]
      rw [hstep1, hstep2]
      have hrec := ih _ hg2
      refine ⟨hrec.1, ?_, ?_, hrec.2.2.2⟩
      · rw [← hsh.2.2]
        exact hrec.2.1
      · intro i hi
        have := hrec.2.2.1 i hi
        rw [← hsh.2.2]
        exact this
    | del mid now =>
      have hsh := delete_memory_shape s mid now
      have hg2 := goodLTM_of_shape hg hsh.1 hsh.2.1 hsh.2.2
      have hstep1 : (runOps embed s (LTMOp.del mid now :: ops)).1 =
          (runOps embed (s.delete_memory mid now).2 ops).1 := by
        simp [runOps]
      have hstep2 : (runOps embed s (LTMOp.del mid now :: ops)).2 =
          (runOps embed (s.delete_memory mid now).2 ops).2 := by
        simp [runOps]
      rw [hstep1, hstep2]
      have hrec := ih _ hg2
      refine ⟨hrec.1, ?_, ?_, hrec.2.2.2⟩
      · rw [← hsh.2.2]
        exact hrec.2.1
      · intro i hi
        have := hrec.2.2.1 i hi
        rw [← hsh.2.2]
        exact this

/-- C5: over any sequence of add/update/delete calls on a fresh
LongTermMemory, the ids returned by the (successful) `add_memory` calls
are pairwise distinct, and afterwards — hence after every prefix, since
the sequence is universally quantified — `get_stats` satisfies
`index_size = total_memories`. -/
theorem add_ids_distinct_stats_eq (embed : String → Except String Vec) (dim : Nat)
    (ops : List LTMOp) :
    ((runOps embed (LongTermMemory.fresh dim) ops).1).Nodup ∧
    (runOps embed (LongTermMemory.fresh dim) ops).2.get_stats.index_size =
      (runOps embed (LongTermMemory.fresh dim) ops).2.get_stats.total_memories := by
  have hg : GoodLTM (LongTermMemory.fresh dim) := by
    constructor
    · rfl
    · intro x hx
      simp [LongTermMemory.fresh] at hx
  have h := runOps_invariant embed ops (LongTermMemory.fresh dim) hg
  constructor
  · exact h.2.2.2.imp (fun hab => Nat.ne_of_lt hab)
  · simpa [LongTermMemory.get_stats] using h.1.1

/-!
C4.  The sliding window of WorkingMemory.  The truncation slice is
`existing_list[-window_size:]`, which for a window size of zero keeps the
whole list, so the claimed bound fails at N = 0; for N at least 1 the
window holds the last N turns, oldest first.
-/

theorem foldl_winAdd_drop (N : Nat) (hN : 1 ≤ N) :
    ∀ ts : List Turn, List.foldl (winAdd N) [] ts = ts.drop (ts.length - N) := by
  intro ts
  induction ts using List.reverseRecOn with
  | nil => simp
  | append_singleton l a ih =>
    rw [List.foldl_append, List.foldl_cons, List.foldl_nil, ih]
    rcases Nat.lt_or_ge l.length N with hlt | hge
    · have h0 : l.length - N = 0 := by omega
      rw [h0, List.drop_zero]
      have h1 : (l ++ [a]).length - N = 0 := by
        rw [List.length_append, List.length_singleton]
        omega
      rw [h1, List.drop_zero]
      simp only [winAdd]
      have hc : ¬ (l ++ [a]).length > N := by
        rw [List.length_append, List.length_singleton]
        omega
      rw [if_neg hc]
    · have hlw : (l.drop (l.length - N)).length = N := by
        rw [List.length_drop]
        omega
      simp only [winAdd]
      have hc : (l.drop (l.length - N) ++ [a]).length > N := by
        rw [List.length_append, List.length_singleton, hlw]
        omega
      rw [if_pos hc]
      unfold takeLastPy
      have hN0 : ¬ N = 0 := by omega
      rw [if_neg hN0]
      have hlen2 : (l.drop (l.length - N) ++ [a]).length - N = 1 := by
        rw [List.length_append, List.length_singleton, hlw]
        omega
      rw [hlen2]
      have hd1 : (l.drop (l.length - N) ++ [a]).drop 1 =
          (l.drop (l.length - N)).drop 1 ++ [a] := by
        apply List.drop_append_of_le_length
        omega
      rw [hd1, List.drop_drop]
      have hidx : l.length - N + 1 = (l ++ [a]).length - N := by
        rw [List.length_append, List.length_singleton]
        omega
      rw [hidx]
      have hr : (l ++ [a]).drop ((l ++ [a]).length - N) =
          l.drop ((l ++ [a]).length - N) ++ [a] := by
        apply List.drop_append_of_le_length
        rw [List.length_append, List.length_singleton]
        omega
      rw [hr]

theorem add_context_preserves (w : WorkingMemory) (sid role content : String)
    (md : Meta) (now : Nat) :
    (w.add_context sid role content md now).2.available = w.available ∧
    (w.add_context sid role content md now).2.window_size = w.window_size := by
  cases hav : w.available <;> simp [WorkingMemory.add_context, hav]

theorem get_context_add_context (w : WorkingMemory) (sid role content : String)
    (md : Meta) (now : Nat) (hav : w.available = true) :
    (w.add_context sid role content md now).2.get_context sid =
      winAdd w.window_size (w.get_context sid)
        { role := role, content := content, timestamp := now, metadata := md } := by
  simp [WorkingMemory.add_context, WorkingMemory.get_context, hav, assocFind_assocSet_self]

theorem runAddContext_get (sid : String) :
    ∀ (xs : List TurnInput) (w : WorkingMemory), w.available = true →
      (runAddContext w sid xs).get_context sid =
        List.foldl (winAdd w.window_size) (w.get_context sid) (xs.map TurnInput.toTurn) := by
  intro xs
  induction xs with
  | nil =>
    intro w hav
    rfl
  | cons x xs ih =>
    intro w hav
    have hpres := add_context_preserves w sid x.role x.content x.metadata x.now
    have hav2 : (w.add_context sid x.role x.content x.metadata x.now).2.available = true := by
      rw [hpres.1, hav]
    have hrw := ih (w.add_context sid x.role x.content x.metadata x.now).2 hav2
    have hstep : runAddContext w sid (x :: xs) =
        runAddContext (w.add_context sid x.role x.content x.metadata x.now).2 sid xs := rfl
    rw [hstep, hrw, hpres.2, List.map_cons, List.foldl_cons,
      get_context_add_context w sid x.role x.content x.metadata x.now hav]
    rfl

theorem runAddContextOk_true (sid : String) :
    ∀ (xs : List TurnInput) (w : WorkingMemory), w.available = true →
      runAddContextOk w sid xs = true := by
  intro xs
  induction xs with
  | nil =>
    intro w hav
    rfl
  | cons x xs ih =>
    intro w hav
    have hpres := add_context_preserves w sid x.role x.content x.metadata x.now
    have hav2 : (w.add_context sid x.role x.content x.metadata x.now).2.available = true := by
      rw [hpres.1, hav]
    rw [show runAddContextOk w sid (x :: xs) =
        ((w.add_context sid x.role x.content x.metadata x.now).1 &&
          runAddContextOk (w.add_context sid x.role x.content x.metadata x.now).2 sid xs)
      from rfl]
    rw [ih _ hav2]
    simp [WorkingMemory.add_context, hav]

/-- C4 counterexample: with the configured window size 0, two successful
`add_context` calls leave a window of 2 turns (the Python slice `[-0:]`
keeps the whole list), so `get_context` does not return at most N = 0
turns. -/
theorem window_zero_cex :
    (freshWM 0).window_size = 0 ∧
    runAddContextOk (freshWM 0) "s" [tin1, tin2] = true ∧
    ((runAddContext (freshWM 0) "s" [tin1, tin2]).get_context "s").length = 2 := by
  refine ⟨rfl, ?_, ?_⟩ <;> decide

/-- C4 amended: provided the configured window size N is at least 1 (for
N = 0 the source slice keeps the whole list and never truncates), after
any sequence of `add_context` calls on one session of a fresh available
store, every call reports success, `get_context` returns exactly the last
N of the turns added in order (oldest first, FIFO eviction), and in
particular at most N turns. -/
theorem window_bound_fifo (N : Nat) (hN : 1 ≤ N) (sid : String) (xs : List TurnInput) :
    runAddContextOk (freshWM N) sid xs = true ∧
    (runAddContext (freshWM N) sid xs).get_context sid =
      (xs.map TurnInput.toTurn).drop (xs.length - N) ∧
    ((runAddContext (freshWM N) sid xs).get_context sid).length ≤ N := by
  have hav : (freshWM N).available = true := rfl
  have hg := runAddContext_get sid xs (freshWM N) hav
  have hfold := foldl_winAdd_drop N hN (xs.map TurnInput.toTurn)
  rw [List.length_map] at hfold
  have hget : (freshWM N).get_context sid = [] := rfl
  have hws : (freshWM N).window_size = N := rfl
  refine ⟨runAddContextOk_true sid xs (freshWM N) hav, ?_, ?_⟩
  · rw [hg, hget, hws, hfold]
  · rw [hg, hget, hws, hfold, List.length_drop, List.length_map]
    omega

/-- C4 witness: with window size 1, after two adds the window holds
exactly the single most recent turn. -/
theorem window_bound_fifo_witness :
    runAddContextOk (freshWM 1) "s" [tin1, tin2] = true ∧
    (runAddContext (freshWM 1) "s" [tin1, tin2]).get_context "s" = [tin2.toTurn] ∧
    ((runAddContext (freshWM 1) "s" [tin1, tin2]).get_context "s").length ≤ 1 := by
  have h := window_bound_fifo 1 (by decide) "s" [tin1, tin2]
  refine ⟨h.1, ?_, h.2.2⟩
  rw [h.2.1]
  decide

end AgentMemory
